import Mathlib

/-!
Verification development for the workshop-docs-agent repository.

The repository bundles (A) a source-documentation generator
(`src/prout.py`, `src/utilities.py`) and (B) the IIRA reliability
statistics application (`src/resources/IIRA/...`).  Each section below is a
shallow embedding of one part of the code, followed by theorems about it.
Python strings are modelled as `List Char` where character-level behaviour
matters and as `String` otherwise; pandas DataFrames are modelled as row
lists; Decimal arithmetic (34 significant digits) is modelled exactly over
`ℚ` (the approximation error of Decimal division is < 10⁻³⁰ and does not
affect any 4-decimal comparison made here).
-/

namespace WorkshopDocs

/-! ## Metrics (src/resources/IIRA/core/metrics.py)

`Metrics.__init__` stores `ratings` (a DataFrame whose rows are subjects and
whose columns are the replicates: both `find_intra_ratings` and
`find_inter_ratings` build it with `pd.DataFrame.from_dict(ret, orient="index")`,
subject keys becoming row labels), sets `quantity_subjects = len(ratings)`
(the number of rows) and hard-codes `replications = 2`.

`overall_agreement`, in the `replications == 2` branch, runs
`for subject in self.ratings:` — iterating a DataFrame yields its COLUMN
labels — and then reads `self.ratings[subject][FIRST_REPLIACTE]` and
`self.ratings[subject][SECOND_REPLICATE]` with `FIRST_REPLIACTE = 0`,
`SECOND_REPLICATE = 1`.  Because the row index consists of subject-name
strings, the integer lookups fall back to POSITIONAL indexing: they read the
values of subjects number 0 and 1 inside the replicate column.  So the code
compares the first two subject ROWS within each replicate COLUMN, while its
own docstring says it "calculates the proportion of subjects for which both
replications agree".
-/

/-- The value `ratings[c][r]` of the ratings DataFrame: column label `c`
(replicate), positional row `r` (subject). `rows` lists the subject rows in
order, each row listing its replicate values. -/
def dfCell (rows : List (List String)) (c r : Nat) : String :=
  (rows.getD r []).getD c ""

/-- Embedding of `Metrics.overall_agreement` (the `replications == 2` branch,
the only one reachable: the constructor hard-codes `replications = 2`).
For each category `k` it counts the REPLICATE COLUMNS `c` with
`ratings[c][0] == k and ratings[c][0] == ratings[c][1]` and divides by
`quantity_subjects = len(ratings)` (the number of rows). -/
def overall_agreement (categories : List String) (rows : List (List String)) : ℚ :=
  let m : ℚ := rows.length
  let cols := List.range ((rows.headD []).length)
  (categories.map (fun k =>
    (((cols.filter (fun c =>
        (dfCell rows c 0 == k) && (dfCell rows c 0 == dfCell rows c 1))).length : ℚ) / m))).sum

/-- Modelled from the spec and from `overall_agreement`'s own docstring
("the proportion of subjects for which both replications agree",
`p_a = Σ_k n_kk / m`): for each category `k`, count the SUBJECT ROWS whose
two replicate values both equal `k`, divided by the number of subjects. -/
def overall_agreement_spec (categories : List String) (rows : List (List String)) : ℚ :=
  let m : ℚ := rows.length
  (categories.map (fun k =>
    (((rows.filter (fun r =>
        (r.getD 0 "" == k) && (r.getD 0 "" == r.getD 1 ""))).length : ℚ) / m))).sum

/-- Embedding of `Metrics.g_index`:
`(p_a - 1/q) / (1 - 1/q)` with `q` the number of categories and `p_a` the
value computed by `overall_agreement`. -/
def g_index (categories : List String) (rows : List (List String)) : ℚ :=
  let q : ℚ := categories.length
  (overall_agreement categories rows - 1 / q) / (1 - 1 / q)

/-- The same formula applied to the docstring-intended overall agreement. -/
def g_index_spec (categories : List String) (rows : List (List String)) : ℚ :=
  let q : ℚ := categories.length
  (overall_agreement_spec categories rows - 1 / q) / (1 - 1 / q)

/-- Rounding to 4 decimal places, as in `float(round(g_index, 4))`.
(Decimal rounding is half-even; the values compared here are not ties, so
round-half-up agrees.) -/
def round4 (x : ℚ) : ℚ := (round (x * 10000) : ℚ) / 10000

/-- The claim's example table: 3 subjects whose replicate pairs are
`(a,a)`, `(a,b)`, `(b,b)`. -/
def c1Rows : List (List String) := [["a", "a"], ["a", "b"], ["b", "b"]]

/-- C1: the code disagrees with the claim and with its own docstring.  On the
claim's example (categories `["a","b"]`, subjects `(a,a)`, `(a,b)`, `(b,b)`),
`overall_agreement` evaluates to `1/3`, not the claimed `2/3`: iterating
`for subject in self.ratings` walks the two replicate COLUMNS and compares
subject rows 0 and 1 inside each, so only category `a` (column 0 holding
`a, a, b`) contributes `1/3`.  The docstring formula (count subjects whose
two replicates both equal `k`) gives the claimed `2/3`.  Consequently
`g_index` evaluates to `-1/3` (−0.3333 at 4 places), not `0.3333`. -/
theorem c1_overall_agreement_code_bug :
    overall_agreement ["a", "b"] c1Rows = 1 / 3 ∧
    overall_agreement_spec ["a", "b"] c1Rows = 2 / 3 ∧
    g_index ["a", "b"] c1Rows = -(1 / 3) ∧
    g_index_spec ["a", "b"] c1Rows = 1 / 3 ∧
    round4 (g_index ["a", "b"] c1Rows) = -(3333 / 10000) ∧
    round4 (g_index_spec ["a", "b"] c1Rows) = 3333 / 10000 := by
  refine ⟨?_, ?_, ?_, ?_, ?_, ?_⟩ <;>
    simp [overall_agreement, overall_agreement_spec, g_index, g_index_spec,
      round4, c1Rows, dfCell, List.range_succ] <;> norm_num [round_eq]

/-! ## Analyse screen metric population (src/resources/IIRA/gui/analyseframe.py)

`AnalyseFrame.populate_metrics_container` assigns `self.metrics` through an
`if/elif` chain on `self.container.scale_format` with branches for the
literal strings `"nominal"`, `"ordinal"`, `"intervall"` and `"rational"`;
a scale format matching no branch leaves `self.metrics` unchanged
(it is initialised to `[]` in `AnalyseFrame.__init__`).  The Scale screen
(`ScaleFrame.__init__`, src/resources/IIRA/gui/fileframes.py) offers the
scale types `["nominal", "ordinal", "intervall", "ratio"]`. -/

/-- The scale-type list offered by the Scale screen. -/
def scale_types : List String := ["nominal", "ordinal", "intervall", "ratio"]

/-- Embedding of the `if/elif` chain of `populate_metrics_container`:
given the session's scale format and the current value of `self.metrics`,
returns the new value of `self.metrics`. -/
def populate_metrics (scale_format : String) (metrics : List String) : List String :=
  if scale_format = "nominal" then
    ["Cohen\x27s-|Conger\x27s κ", "Fleiss\x27 κ", "Krippendorff\x27s α", "Gwet\x27s AC"]
  else if scale_format = "ordinal" then
    ["Cohen\x27s-|Conger\x27s κ", "Fleiss\x27 κ", "Krippendorff\x27s α", "Gwet\x27s AC"]
  else if scale_format = "intervall" then ["ICC"]
  else if scale_format = "rational" then ["ICC"]
  else metrics

/-- C2: scale format `"intervall"` yields the metric list `["ICC"]`, while
`"ratio"` — the fourth entry of the Scale screen's scale-type list — matches
no branch (the branch tests the literal `"rational"`), so the metric list is
left exactly as it was and in particular never receives `"ICC"` through this
path unless it already contained it. -/
theorem c2_ratio_scale_never_gets_icc (metrics : List String) :
    populate_metrics "intervall" metrics = ["ICC"] ∧
    populate_metrics "ratio" metrics = metrics ∧
    scale_types.getD 3 "" = "ratio" ∧
    ("ratio" : String) ≠ "rational" ∧
    ("ICC" ∈ populate_metrics "ratio" metrics ↔ "ICC" ∈ metrics) := by
  refine ⟨?_, ?_, by decide, by decide, ?_⟩ <;>
    simp [populate_metrics]

/-- Witness for C2 at the concrete current metric list `[]`. -/
theorem c2_ratio_scale_never_gets_icc_witness :
    populate_metrics "ratio" [] = [] ∧ populate_metrics "intervall" [] = ["ICC"] :=
  ⟨(c2_ratio_scale_never_gets_icc []).2.1, (c2_ratio_scale_never_gets_icc []).1⟩

/-! ## Inter-rater table construction (src/resources/IIRA/core/create_analyses.py)

`CreateAnalyses.find_inter_ratings` builds an insertion-ordered dict
`ret : subject → list of values` by iterating `enumerate(self.inter_id_list)`
and, for each rater's `(subject, value)` pairs (`rating[TEXT]`,
`rating[LABEL]` with `TEXT = 0`, `LABEL = 1`): if the subject is present and
already holds strictly more than `i` values, the pair is skipped; otherwise
the value is appended (a fresh subject is inserted with a one-element list).
The insertion-ordered dict is modelled as an association list. -/

/-- `ret.get(subject)` on the insertion-ordered dict (keys are unique by
construction, so first-match lookup is dict lookup). -/
def dictGet : List (String × List String) → String → Option (List String)
  | [], _ => none
  | e :: rest, k => if e.1 = k then some e.2 else dictGet rest k

/-- `ret[k].append(v)` on the insertion-ordered dict. -/
def dictAppendAt : List (String × List String) → String → String → List (String × List String)
  | [], _, _ => []
  | e :: rest, k, v =>
    if e.1 = k then (e.1, e.2 ++ [v]) :: rest else e :: dictAppendAt rest k v

/-- One loop body of `find_inter_ratings` at rater position `i`, processing
one `(subject, value)` pair. -/
def stepRating (i : Nat) (ret : List (String × List String)) (tv : String × String) :
    List (String × List String) :=
  match dictGet ret tv.1 with
  | some vs => if vs.length > i then ret else dictAppendAt ret tv.1 tv.2
  | none => ret ++ [(tv.1, [tv.2])]

/-- Embedding of `CreateAnalyses.find_inter_ratings`: fold the loop body over
`enumerate(inter_id_list)` and each rater's label data. -/
def find_inter_ratings (inter_id_list : List String)
    (data : String → List (String × String)) : List (String × List String) :=
  (inter_id_list.enum).foldl
    (fun ret p => (data p.2).foldl (stepRating p.1) ret) []

/-- Appending a value under a present key updates exactly that key's list. -/
theorem dictGet_dictAppendAt {d : List (String × List String)} {k : String} {vs : List String}
    (h : dictGet d k = some vs) (v : String) :
    dictGet (dictAppendAt d k v) k = some (vs ++ [v]) := by
  induction d with
  | nil => simp [dictGet] at h
  | cons e rest ih =>
    by_cases hk : e.1 = k
    · simp [dictGet, hk] at h
      simp [dictAppendAt, dictGet, hk, h]
    · simp [dictGet, hk] at h
      simp [dictAppendAt, dictGet, hk, ih h]

/-- The claim's example label data: Alice rated `s1` twice (`x`, then a
duplicate `dup`), Bob rated `s1` once (`y`). -/
def c8Data : String → List (String × String) := fun id =>
  if id = "Alice" then [("s1", "x"), ("s1", "dup")]
  else if id = "Bob" then [("s1", "y")] else []

/-- C8: the per-pair rule of `find_inter_ratings` — at rater position `i`
a pair is skipped iff its subject already holds strictly more than `i`
values, appended otherwise, and a fresh subject is inserted with a
one-element row — and the claim's example: with rater order
`["Alice", "Bob"]` and the data above, the resulting row for `s1` is exactly
`["x", "y"]` (Alice's second entry is discarded). -/
theorem c8_find_inter_ratings :
    (∀ i ret s v vs, dictGet ret s = some vs → vs.length > i →
        stepRating i ret (s, v) = ret) ∧
    (∀ i ret s v vs, dictGet ret s = some vs → ¬ vs.length > i →
        dictGet (stepRating i ret (s, v)) s = some (vs ++ [v])) ∧
    (∀ i ret s v, dictGet ret s = none →
        stepRating i ret (s, v) = ret ++ [(s, [v])]) ∧
    find_inter_ratings ["Alice", "Bob"] c8Data = [("s1", ["x", "y"])] := by
  refine ⟨?_, ?_, ?_, by decide⟩
  · intro i ret s v vs h hlen
    simp [stepRating, h, hlen]
  · intro i ret s v vs h hlen
    simp [stepRating, h, hlen]
    exact dictGet_dictAppendAt h v
  · intro i ret s v h
    simp [stepRating, h]

/-- Witness for C8: the skip rule and the append rule discharged on concrete
dict states. -/
theorem c8_find_inter_ratings_witness :
    stepRating 0 [("s1", ["x"])] ("s1", "dup") = [("s1", ["x"])] ∧
    dictGet (stepRating 1 [("s1", ["x"])] ("s1", "y")) "s1" = some (["x"] ++ ["y"]) :=
  ⟨c8_find_inter_ratings.1 0 [("s1", ["x"])] "s1" "dup" ["x"] (by decide)
      (by decide),
    c8_find_inter_ratings.2.1 1 [("s1", ["x"])] "s1" "y" ["x"] (by decide)
      (by decide)⟩

/-! ## Chat-completion client configurations (src/prout.py, src/utilities.py)

Two `ChatOpenAI(...)` constructions appear in the repository.
`src/prout.py` (documentation-generator pipeline) passes
`model_name="gpt-4o", temperature=0.3, streaming=True, max_retries=10,
verbose=True` and no `request_timeout`.
`src/utilities.py` (alternate batch docstring pipeline) passes
`model_name="gpt-4o", temperature=0.3, streaming=True, request_timeout=60`
and leaves `max_retries` and `verbose` at the langchain library defaults
(2 retries, verbose off). -/

/-- The keyword arguments of a `ChatOpenAI` construction that the claims are
about (fields in order: model_name, temperature, streaming, max_retries,
verbose, request_timeout in seconds, `none` when not passed). -/
structure ChatOpenAIConfig where
  model_name : String
  temperature : ℚ
  streaming : Bool
  max_retries : Nat
  verbose : Bool
  request_timeout : Option Nat
deriving DecidableEq

/-- The client constructed at module scope in `src/prout.py`. -/
def prout_llm : ChatOpenAIConfig :=
  ⟨"gpt-4o", 3 / 10, true, 10, true, none⟩

/-- The client constructed at module scope in `src/utilities.py`.
`max_retries` and `verbose` are not passed; the langchain defaults are
2 and off.  `request_timeout=60` is passed explicitly in the source. -/
def utilities_llm : ChatOpenAIConfig :=
  ⟨"gpt-4o", 3 / 10, true, 2, false, some 60⟩

/-- The configuration asserted by the claim for every client. -/
def claimed_llm_config (c : ChatOpenAIConfig) : Prop :=
  c.model_name = "gpt-4o" ∧ c.temperature = 3 / 10 ∧ c.streaming = true ∧
    c.max_retries = 10 ∧ c.verbose = true ∧ c.request_timeout = none

/-- C9 counterexample: the alternate batch pipeline's client does not satisfy
the claimed configuration — its source passes `request_timeout=60`
explicitly (and does not pass `max_retries=10` or `verbose=True`). -/
theorem c9_counterexample : ¬ claimed_llm_config utilities_llm := by
  intro h
  have := h.2.2.2.2.2
  simp [utilities_llm] at this

/-- C9 amended: the documentation-generator client is configured exactly as
the claim states (gpt-4o, temperature 0.3, streaming, 10 retries, verbose,
no request timeout); the alternate batch pipeline's client shares the model,
temperature and streaming settings but sets a 60-second request timeout and
leaves retries and verbosity at the library defaults. -/
theorem c9_amended :
    claimed_llm_config prout_llm ∧
    utilities_llm.model_name = "gpt-4o" ∧
    utilities_llm.temperature = 3 / 10 ∧
    utilities_llm.streaming = true ∧
    utilities_llm.request_timeout = some 60 ∧
    utilities_llm.max_retries = 2 ∧
    utilities_llm.verbose = false := by
  refine ⟨⟨rfl, by norm_num [prout_llm], rfl, rfl, rfl, rfl⟩, rfl, by norm_num [utilities_llm],
    rfl, rfl, rfl, rfl⟩

/-! ## Profile store (src/resources/IIRA/core/fileinteraction.py)

`DBInteraction.change_profile(change_to)` executes, in order:
`tmp = self.active_profile`; `self.active_profile = change_to`;
`self.profiles.remove(change_to)` — which raises `ValueError` when
`change_to` is not in the list, AFTER the reassignment of
`active_profile`; `self.profiles.append(tmp)`; `self.write_to_db()`.
`write_to_db` persists `[active_profile] + profiles` to the CSV store.
The embedding returns `Except`: `.error st` models the `ValueError`
escaping with the object left in state `st` and nothing persisted;
`.ok (st, rows)` models normal completion with `rows` the persisted
single-column table. -/

/-- Mutable state of a `DBInteraction` object: the active profile and the
list of other profiles. -/
structure DBState where
  active_profile : String
  profiles : List String
deriving DecidableEq

/-- Embedding of `DBInteraction.change_profile` followed (on success) by
`write_to_db`. -/
def change_profile (st : DBState) (change_to : String) : Except DBState (DBState × List String) :=
  let tmp := st.active_profile
  let st1 : DBState := ⟨change_to, st.profiles⟩
  if change_to ∈ st1.profiles then
    let st2 : DBState := ⟨st1.active_profile, st1.profiles.erase change_to ++ [tmp]⟩
    .ok (st2, st2.active_profile :: st2.profiles)
  else .error st1

/-- C10 counterexample: with active profile `"A"`, empty others list and
target `"A"` (not present in the others list), the call does raise — but the
state at the raise still has `"A"` as the active profile, so the previously
active profile IS still active, contrary to the claim that on error it is
"neither active nor in the others list". -/
theorem c10_counterexample :
    change_profile ⟨"A", []⟩ "A" = .error ⟨"A", []⟩ ∧
    (DBState.mk "A" []).active_profile = "A" := by
  constructor
  · rfl
  · rfl

/-- C10 amended: for every state and every target not present in the others
list, DIFFERENT from the active profile, and with the active profile itself
not listed among the others, the call fails with the not-found error
(`ValueError` from `list.remove`), the error state shows `active_profile`
already reassigned to the invalid target, the previously active profile is
neither active nor in the others list, the others list is unchanged, and no
`.ok` outcome (hence no `write_to_db` persistence) is produced. -/
theorem c10_change_profile_not_atomic (st : DBState) (t : String)
    (h1 : t ∉ st.profiles) (h2 : t ≠ st.active_profile)
    (h3 : st.active_profile ∉ st.profiles) :
    change_profile st t = .error ⟨t, st.profiles⟩ ∧
    (DBState.mk t st.profiles).active_profile ≠ st.active_profile ∧
    st.active_profile ∉ (DBState.mk t st.profiles).profiles ∧
    (DBState.mk t st.profiles).profiles = st.profiles ∧
    (∀ r, change_profile st t ≠ .ok r) := by
  have herr : change_profile st t = .error ⟨t, st.profiles⟩ := by
    simp [change_profile, h1]
  exact ⟨herr, h2, h3, rfl, fun r hr => by rw [herr] at hr; exact Except.noConfusion hr⟩

/-- Witness for C10 at the concrete state `⟨"A", ["B"]⟩` and target `"C"`. -/
theorem c10_change_profile_not_atomic_witness :
    change_profile ⟨"A", ["B"]⟩ "C" = .error ⟨"C", ["B"]⟩ ∧
    (DBState.mk "C" ["B"]).active_profile ≠ "A" ∧
    "A" ∉ (DBState.mk "C" ["B"]).profiles ∧
    (DBState.mk "C" ["B"]).profiles = ["B"] ∧
    (∀ r, change_profile ⟨"A", ["B"]⟩ "C" ≠ .ok r) :=
  c10_change_profile_not_atomic ⟨"A", ["B"]⟩ "C" (by decide)
    (by decide) (by decide)

/-! ## Markdown block extraction (src/prout.py, `unwrap_docs` / `extract_md_blocks`)

Python strings are modelled as `List Char` here.  `str.strip()` removes the
ASCII whitespace characters (the inputs of interest are ASCII; Python also
strips further Unicode whitespace).  The regular expression
`r"``` (?:\w+\s+)? (.*?) ```"` (spaces added for readability) of
`extract_md_blocks` is modelled by an explicit scanner with the exact
backtracking semantics of `re.findall` with `re.DOTALL`:

* at a fence (three backticks) at position `i`, let `w` be the maximal run
  of word characters from `i + 3` and `sp` the maximal run of whitespace
  after it; since a shorter word run is necessarily followed by another word
  character, the optional tag group `(?:\w+\s+)?` matches exactly when
  `1 ≤ w` and `1 ≤ sp`, and the lazy `(.*?)` then starts after the full
  word-and-space run (no closing fence can begin inside it); otherwise the
  group is skipped and the content starts at `i + 3`;
* the lazy group ends at the FIRST closing fence at or after its start;
* on a successful match, scanning resumes after the closing fence; on a
  failed attempt, at `i + 1`.

Recursive scanners carry fuel (`s.length + 1` bounds the number of steps
because the scan position strictly increases), keeping every definition
kernel-computable. -/

/-- The whitespace characters of Python's `str.strip` / `\s` (ASCII part). -/
def pyIsSpace (c : Char) : Bool :=
  c = ' ' || c = '\t' || c = '\n' || c = '\x0b' || c = '\x0c' || c = '\x0d'

/-- Python `str.strip()`. -/
def pystrip (s : List Char) : List Char :=
  ((s.dropWhile pyIsSpace).reverse.dropWhile pyIsSpace).reverse

/-- The triple-double-quote delimiter `"""`. -/
def tq : List Char := ['\x22', '\x22', '\x22']

/-- Embedding of `unwrap_docs`: if the stripped text starts and ends with
`"""`, return the stripped interior (`test[3:-3].strip()`); otherwise return
the ORIGINAL text unchanged. -/
def unwrap_docs (text : List Char) : List Char :=
  let test := pystrip text
  if tq.isPrefixOf test && tq.isSuffixOf test then
    pystrip ((test.drop 3).take (test.length - 6))
  else text

/-- The backtick character. -/
def backtick : Char := Char.ofNat 96

/-- A fence: three backticks. -/
def b3 : List Char := [backtick, backtick, backtick]

/-- A word character of the regex class `\w` (ASCII part). -/
def isWordChar (c : Char) : Bool := c.isAlphanum || c = '_'

/-- Is a fence present at position `i`? -/
def fenceAt (s : List Char) (i : Nat) : Bool := b3.isPrefixOf (s.drop i)

/-- First position `≥ q` holding a fence (fuelled scan). -/
def findFenceAux : Nat → List Char → Nat → Option Nat
  | 0, _, _ => none
  | fuel + 1, s, q =>
    if s.length ≤ q then none
    else if fenceAt s q then some q else findFenceAux fuel s (q + 1)

/-- First position `≥ q` holding a fence. -/
def findFence (s : List Char) (q : Nat) : Option Nat :=
  findFenceAux (s.length + 1) s q

/-- One match attempt of the pattern at a fence position `i`: returns the
captured group and the position just after the closing fence. -/
def matchAt (s : List Char) (i : Nat) : Option (List Char × Nat) :=
  let j := i + 3
  let w := ((s.drop j).takeWhile isWordChar).length
  let sp := ((s.drop (j + w)).takeWhile pyIsSpace).length
  let p := if 1 ≤ w ∧ 1 ≤ sp then j + w + sp else j
  match findFence s p with
  | some q => some ((s.drop p).take (q - p), q + 3)
  | none => none

/-- The `re.findall` scan (fuelled): leftmost non-overlapping matches. -/
def findAllAux : Nat → List Char → Nat → List (List Char)
  | 0, _, _ => []
  | fuel + 1, s, i =>
    if s.length ≤ i then []
    else
      match (if fenceAt s i then matchAt s i else none) with
      | some (c, e) => c :: findAllAux fuel s e
      | none => findAllAux fuel s (i + 1)

/-- `re.findall(r"``` (?:\w+\s+)? (.*?) ```", s, re.DOTALL)` (spaces added
for readability): the captured groups of all matches, in input order. -/
def re_findall (s : List Char) : List (List Char) :=
  findAllAux (s.length + 1) s 0

/-- Embedding of `extract_md_blocks`: unwrap each stripped fenced block; if
there is none, fall back to the unwrapped whole input when it is non-empty
(`if test:` — plain truthiness, no trimming). -/
def extract_md_blocks (text : List Char) : List (List Char) :=
  let res := (re_findall text).map (fun b => unwrap_docs (pystrip b))
  if res.isEmpty then
    let test := unwrap_docs text
    if test.isEmpty then res else [test]
  else res

/-- The claim's reading of the fallback clause, for comparison: the whole
unwrapped input is returned only when it is non-empty AFTER TRIMMING. -/
def extract_md_blocks_claimed (text : List Char) : List (List Char) :=
  let res := (re_findall text).map (fun b => unwrap_docs (pystrip b))
  if res.isEmpty then
    let test := unwrap_docs text
    if (pystrip test).isEmpty then res else [test]
  else res

/-- C6 counterexample: on the fence-free, whitespace-only input `"   "` the
code returns `["   "]` — a sole element that is empty after trimming — while
the claim ("… when that result is non-empty after trimming") predicts `[]`. -/
theorem c6_counterexample :
    extract_md_blocks "   ".toList = ["   ".toList] ∧
    extract_md_blocks_claimed "   ".toList = [] ∧
    pystrip (unwrap_docs "   ".toList) = [] := by decide

/-- C6 amended: `extract_md_blocks` returns, in input order, every captured
fenced block stripped and unwrapped; when the input contains no fenced block
it returns the whole input (after the same triple-quote stripping) as the
sole element whenever that result is a non-empty string (whitespace-only
results included — the emptiness check does not trim); in particular
`"Some text\n```python\nHello\n```"` yields exactly `["Hello"]` and
`"Just plain text"` yields `["Just plain text"]`. -/
theorem c6_extract_md_blocks (text : List Char) :
    (re_findall text = [] →
      extract_md_blocks text =
        if (unwrap_docs text).isEmpty then [] else [unwrap_docs text]) ∧
    (re_findall text ≠ [] →
      extract_md_blocks text = (re_findall text).map (fun b => unwrap_docs (pystrip b))) ∧
    extract_md_blocks "Some text\n```python\nHello\n```".toList = ["Hello".toList] ∧
    extract_md_blocks "Just plain text".toList = ["Just plain text".toList] ∧
    re_findall "```a``` mid ```b```".toList = ["a".toList, "b".toList] ∧
    extract_md_blocks "```a``` mid ```b```".toList = ["a".toList, "b".toList] := by
  refine ⟨?_, ?_, by decide, by decide, by decide, by decide⟩
  · intro h
    simp [extract_md_blocks, h]
  · intro h
    simp [extract_md_blocks, List.isEmpty_iff, h]

/-- Witness for C6 at the fence-free input `"   "`. -/
theorem c6_extract_md_blocks_witness :
    extract_md_blocks "   ".toList =
      if (unwrap_docs "   ".toList).isEmpty then [] else [unwrap_docs "   ".toList] :=
  (c6_extract_md_blocks "   ".toList).1 (by decide)

/-! ## The documentation splice `_add_doc` (src/prout.py, `document_files`)

`_add_doc(doc, to_document)` first runs the Markdown Block Extractor on the
raw LLM text: a non-empty result of length > 1 raises
`Exception('Too many blocs in …')` BEFORE `to_document.doc` is assigned and
before the file is rewritten; otherwise the sole block (or, when extraction
returned nothing, the raw text) becomes the documentation, is assigned to
`to_document.doc`, spliced into the file text, and the file is overwritten.

The splice for a `ModuleContainer` prefixes
`f'"""<ident>\n"""\n\n\n'` to the whole file content.  For any other
element, with `line = node_line - 1` and `col = node_col - 1`
(`node_line`/`node_col` are the position of the first statement of the
element's body; `node_col` is the 0-based column, so `lines[line][:col+1]`
is the line's leading text up to that column), the new content is

`stringify(lines[:line]) + lines[line][:col+1] + '"""' + ident + '\n'
 + lines[line][:col+1] + '"""' + '\n' + lines[line][:col] + lines[line][col:]
 + '\n' + stringify(lines[line+1:])`

where `ident` re-indents the stripped lines of the documentation with
`lines[line][:col+1]` as continuation indent.  The file is represented by
its terminator-normalized line list (`re.split(r'\r?\n', …)`), whose
entries therefore contain no newline.  The embedding assumes
`1 ≤ node_col` (true for every real body statement position; Python's
negative-slice behaviour at `node_col = 0` is outside the modelled domain
and excluded by hypothesis where it matters). -/

/-- Python `str.splitlines()` (modelling the terminators `\n`, `\r\n`, `\r`;
the inputs of interest contain no further Unicode terminators). -/
def pySplitlinesAux : List Char → List Char → List (List Char)
  | acc, [] => if acc.isEmpty then [] else [acc.reverse]
  | acc, '\x0d' :: '\n' :: rest => acc.reverse :: pySplitlinesAux [] rest
  | acc, '\x0d' :: rest => acc.reverse :: pySplitlinesAux [] rest
  | acc, '\n' :: rest => acc.reverse :: pySplitlinesAux [] rest
  | acc, c :: rest => pySplitlinesAux (c :: acc) rest

/-- Python `str.splitlines()`. -/
def pySplitlines (s : List Char) : List (List Char) := pySplitlinesAux [] s

/-- Embedding of `_ident_docs(doc, left)`: strip each line of `doc` and join
with `'\n' + left` (leading empty accumulator states never emit the
separator, exactly as `if res:` does). -/
def identDocs (doc : List Char) (left : List Char) : List Char :=
  ((pySplitlines doc).map pystrip).foldl
    (fun res part => if res.isEmpty then part else res ++ '\n' :: (left ++ part)) []

/-- Embedding of `_stringify(lines)`: every line followed by `'\n'`. -/
def stringifyLines (lines : List (List Char)) : List Char :=
  lines.foldl (fun s l => s ++ l ++ ['\n']) []

/-- The splice target: the module root, or an element with the recorded
position (`node_line`, `node_col`) of its body's first statement. -/
inductive SpliceTarget where
  | module : SpliceTarget
  | element (nodeLine nodeCol : Nat) : SpliceTarget

/-- The module-root splice of `_add_doc`. -/
def spliceModule (doc : List Char) (fileContent : List Char) : List Char :=
  tq ++ identDocs doc [] ++ '\n' :: (tq ++ '\n' :: '\n' :: '\n' :: fileContent)

/-- The element splice of `_add_doc` (see the section comment). -/
def spliceElem (doc : List Char) (nodeLine nodeCol : Nat)
    (fileLines : List (List Char)) : List Char :=
  let line := nodeLine - 1
  let col := nodeCol - 1
  let cur := fileLines.getD line []
  let left := cur.take (col + 1)
  stringifyLines (fileLines.take line) ++ left ++ tq ++ identDocs doc left ++
    '\n' :: (left ++ tq ++ '\n' ::
      (cur.take col ++ cur.drop col ++ '\n' :: stringifyLines (fileLines.drop (line + 1))))

/-- The splice for a given target. -/
def splice (doc : List Char) (t : SpliceTarget) (fileLines : List (List Char))
    (fileContent : List Char) : List Char :=
  match t with
  | .module => spliceModule doc fileContent
  | .element l c => spliceElem doc l c fileLines

/-- Embedding of `_add_doc`.  `.error doc` models the
`Exception('Too many blocs in …')` raise — no doc assignment, no write;
`.ok (d, nc)` models assigning `d` to `to_document.doc` and overwriting the
file with `nc`. -/
def addDoc (doc : List Char) (t : SpliceTarget) (fileLines : List (List Char))
    (fileContent : List Char) : Except (List Char) (List Char × List Char) :=
  match extract_md_blocks doc with
  | [] => .ok (doc, splice doc t fileLines fileContent)
  | [b] => .ok (b, splice b t fileLines fileContent)
  | _ :: _ :: _ => .error doc

/-- C4: whenever the extractor finds two or more fenced blocks in the raw
LLM text, `_add_doc` raises — the embedding returns `.error`, producing
neither a doc assignment nor new file content, so the file on disk stays
unchanged for that element. -/
theorem c4_ambiguous_blocks_raise (doc : List Char) (t : SpliceTarget)
    (fileLines : List (List Char)) (fileContent : List Char)
    (h : 2 ≤ (re_findall doc).length) :
    addDoc doc t fileLines fileContent = .error doc ∧
    (∀ r, addDoc doc t fileLines fileContent ≠ .ok r) := by
  have hne : re_findall doc ≠ [] := by
    intro h0
    rw [h0] at h
    simp at h
  have hex : extract_md_blocks doc = (re_findall doc).map (fun b => unwrap_docs (pystrip b)) := by
    simp [extract_md_blocks, List.isEmpty_iff, hne]
  have herr : addDoc doc t fileLines fileContent = .error doc := by
    rcases hr : re_findall doc with _ | ⟨a, _ | ⟨b, rest⟩⟩
    · exact absurd hr hne
    · rw [hr] at h
      simp at h
    · rw [hr] at hex
      simp only [List.map] at hex
      simp [addDoc, hex]
  exact ⟨herr, fun r hrr => by rw [herr] at hrr; exact Except.noConfusion hrr⟩

/-- Witness for C4 at the concrete two-block response
`"```a``` ```b```"` spliced into an empty file. -/
theorem c4_ambiguous_blocks_raise_witness :
    addDoc "```a``` ```b```".toList .module [] [] = .error ("```a``` ```b```".toList) ∧
    (∀ r, addDoc "```a``` ```b```".toList .module [] [] ≠ .ok r) :=
  c4_ambiguous_blocks_raise "```a``` ```b```".toList .module [] [] (by decide)

/-! ### Line structure of the element splice (claim C3)

To state that the splice inserts a triple-quoted block at the body's column
and keeps every original line, we split the produced text at `'\n'`
(`splitNl`, the inverse view of `stringifyLines`; a text ending in `'\n'`
yields a final empty segment). -/

/-- Split a character list at `'\n'` (always returns at least one segment). -/
def splitNl : List Char → List (List Char)
  | [] => [[]]
  | c :: rest =>
    if c = '\n' then [] :: splitNl rest
    else (c :: (splitNl rest).headD []) :: (splitNl rest).tail

theorem splitNl_of_nlFree {a : List Char} (h : '\n' ∉ a) : splitNl a = [a] := by
  induction a with
  | nil => rfl
  | cons c rest ih =>
    have hc : c ≠ '\n' := fun hc => h (hc ▸ List.mem_cons_self c rest)
    have hr : '\n' ∉ rest := fun hm => h (List.mem_cons_of_mem c hm)
    simp [splitNl, hc, ih hr]

theorem splitNl_append_nl {a : List Char} (h : '\n' ∉ a) (b : List Char) :
    splitNl (a ++ '\n' :: b) = a :: splitNl b := by
  induction a with
  | nil => simp [splitNl]
  | cons c rest ih =>
    have hc : c ≠ '\n' := fun hc => h (hc ▸ List.mem_cons_self c rest)
    have hr : '\n' ∉ rest := fun hm => h (List.mem_cons_of_mem c hm)
    show splitNl (c :: (rest ++ '\n' :: b)) = (c :: rest) :: splitNl b
    rw [splitNl, if_neg hc, ih hr]
    rfl

theorem stringify_go (ls : List (List Char)) :
    ∀ acc : List Char,
      List.foldl (fun s x => s ++ x ++ ['\n']) acc ls = acc ++ stringifyLines ls := by
  induction ls with
  | nil => intro acc; exact (List.append_nil acc).symm
  | cons x xs ih =>
    intro acc
    have hstep : stringifyLines (x :: xs) = (x ++ ['\n']) ++ stringifyLines xs :=
      calc stringifyLines (x :: xs)
          = List.foldl (fun s y => s ++ y ++ ['\n']) (([] : List Char) ++ x ++ ['\n']) xs := rfl
        _ = (([] : List Char) ++ x ++ ['\n']) ++ stringifyLines xs := ih _
        _ = (x ++ ['\n']) ++ stringifyLines xs := by rw [List.nil_append]
    calc List.foldl (fun s y => s ++ y ++ ['\n']) acc (x :: xs)
        = List.foldl (fun s y => s ++ y ++ ['\n']) (acc ++ x ++ ['\n']) xs := rfl
      _ = (acc ++ x ++ ['\n']) ++ stringifyLines xs := ih _
      _ = acc ++ ((x ++ ['\n']) ++ stringifyLines xs) := by
          rw [List.append_assoc, List.append_assoc, List.append_assoc]
      _ = acc ++ stringifyLines (x :: xs) := by rw [hstep]

theorem stringifyLines_cons (l : List Char) (ls : List (List Char)) :
    stringifyLines (l :: ls) = l ++ '\n' :: stringifyLines ls :=
  calc stringifyLines (l :: ls)
      = List.foldl (fun s y => s ++ y ++ ['\n']) (([] : List Char) ++ l ++ ['\n']) ls := rfl
    _ = (([] : List Char) ++ l ++ ['\n']) ++ stringifyLines ls := stringify_go ls _
    _ = l ++ '\n' :: stringifyLines ls := by simp

theorem splitNl_stringify {lines : List (List Char)} (h : ∀ l ∈ lines, '\n' ∉ l)
    (rest : List Char) :
    splitNl (stringifyLines lines ++ rest) = lines ++ splitNl rest := by
  induction lines with
  | nil => simp [stringifyLines]
  | cons l ls ih =>
    have hl : '\n' ∉ l := h l (List.mem_cons_self l ls)
    have hls : ∀ x ∈ ls, '\n' ∉ x := fun x hx => h x (List.mem_cons_of_mem l hx)
    rw [stringifyLines_cons, List.append_assoc, List.cons_append,
      splitNl_append_nl hl, ih hls]
    rfl

/-- The normal form of an `_ident_docs` result: a first line `r0` followed
by further stripped lines, each preceded by `'\n'` and the continuation
indent `left`. -/
def mkIdent (left r0 : List Char) (rs : List (List Char)) : List Char :=
  r0 ++ (rs.map (fun x => '\n' :: (left ++ x))).flatten

theorem splitNl_mkIdent {left : List Char} (hleft : '\n' ∉ left) :
    ∀ (rs : List (List Char)), (∀ x ∈ rs, '\n' ∉ x) →
    ∀ (A r0 : List Char), '\n' ∉ A → '\n' ∉ r0 → ∀ (B : List Char),
    splitNl (A ++ mkIdent left r0 rs ++ '\n' :: B) =
      (A ++ r0) :: (List.map (fun x => left ++ x) rs ++ splitNl B) := by
  intro rs
  induction rs with
  | nil =>
    intro _ A r0 hA h0 B
    have hA0 : '\n' ∉ A ++ r0 := by
      intro hm
      rcases List.mem_append.mp hm with hm | hm
      · exact hA hm
      · exact h0 hm
    have hsh : A ++ mkIdent left r0 [] ++ '\n' :: B = (A ++ r0) ++ '\n' :: B := by
      simp [mkIdent]
    rw [hsh, splitNl_append_nl hA0]
    simp
  | cons x xs ih =>
    intro hmem A r0 hA h0 B
    have hx : '\n' ∉ x := hmem x (List.mem_cons_self x xs)
    have hxs : ∀ y ∈ xs, '\n' ∉ y := fun y hy => hmem y (List.mem_cons_of_mem x hy)
    have hA0 : '\n' ∉ A ++ r0 := by
      intro hm
      rcases List.mem_append.mp hm with hm | hm
      · exact hA hm
      · exact h0 hm
    have hshape : A ++ mkIdent left r0 (x :: xs) ++ '\n' :: B =
        (A ++ r0) ++ '\n' :: (left ++ mkIdent left x xs ++ '\n' :: B) := by
      simp [mkIdent, List.append_assoc]
    rw [hshape, splitNl_append_nl hA0, ih hxs left x hleft hx B]
    simp

theorem mem_of_mem_dropWhileP {p : Char → Bool} {c : Char} :
    ∀ {l : List Char}, c ∈ l.dropWhile p → c ∈ l := by
  intro l
  induction l with
  | nil => intro h; simp at h
  | cons a as ih =>
    intro h
    rw [List.dropWhile_cons] at h
    by_cases hp : p a = true
    · rw [if_pos hp] at h
      exact List.mem_cons_of_mem a (ih h)
    · rw [if_neg hp] at h
      exact h

/-- Membership survives `pystrip`. -/
theorem mem_of_mem_pystrip {c : Char} {l : List Char} (h : c ∈ pystrip l) : c ∈ l := by
  unfold pystrip at h
  rw [List.mem_reverse] at h
  have h1 := mem_of_mem_dropWhileP h
  rw [List.mem_reverse] at h1
  exact mem_of_mem_dropWhileP h1

/-- The segments produced by `pySplitlines` contain no `'\n'`. -/
theorem pySplitlinesAux_no_nl (acc s : List Char) :
    '\n' ∉ acc → ∀ part ∈ pySplitlinesAux acc s, '\n' ∉ part := by
  induction acc, s using pySplitlinesAux.induct with
  | case1 acc hemp =>
    intro hacc part hp
    simp [pySplitlinesAux, hemp] at hp
  | case2 acc hemp =>
    intro hacc part hp
    simp only [pySplitlinesAux, if_neg hemp, List.mem_singleton] at hp
    subst hp
    simpa using hacc
  | case3 acc rest ih =>
    intro hacc part hp
    simp only [pySplitlinesAux, List.mem_cons] at hp
    rcases hp with hp | hp
    · subst hp; simpa using hacc
    · exact ih (by simp) part hp
  | case4 acc rest hne ih =>
    intro hacc part hp
    simp only [pySplitlinesAux, List.mem_cons] at hp
    rcases hp with hp | hp
    · subst hp; simpa using hacc
    · exact ih (by simp) part hp
  | case5 acc rest ih =>
    intro hacc part hp
    simp only [pySplitlinesAux, List.mem_cons] at hp
    rcases hp with hp | hp
    · subst hp; simpa using hacc
    · exact ih (by simp) part hp
  | case6 acc c rest h1 h2 h3 ih =>
    intro hacc part hp
    have hacc' : '\n' ∉ c :: acc := by
      intro hm
      rcases List.mem_cons.mp hm with hm | hm
      · exact h3 hm.symm
      · exact hacc hm
    refine ih hacc' part ?_
    simpa only [pySplitlinesAux] using hp

/-- `_ident_docs` always produces the normal form `mkIdent` with
newline-free components. -/
theorem identDocs_shape (doc left : List Char) :
    ∃ (r0 : List Char) (rs : List (List Char)),
      identDocs doc left = mkIdent left r0 rs ∧ '\n' ∉ r0 ∧ ∀ x ∈ rs, '\n' ∉ x := by
  have hparts : ∀ p ∈ (pySplitlines doc).map pystrip, '\n' ∉ p := by
    intro p hp
    rcases List.mem_map.mp hp with ⟨q, hq, hpq⟩
    intro hmem
    have hq' : '\n' ∈ pystrip q := by rw [hpq]; exact hmem
    exact pySplitlinesAux_no_nl [] doc (by simp) q hq (mem_of_mem_pystrip hq')
  have main : ∀ (parts : List (List Char)), (∀ p ∈ parts, '\n' ∉ p) →
      ∀ (r0 : List Char) (rs : List (List Char)), '\n' ∉ r0 → (∀ x ∈ rs, '\n' ∉ x) →
      ∃ (r0' : List Char) (rs' : List (List Char)),
        List.foldl
          (fun res part => if res.isEmpty then part else res ++ '\n' :: (left ++ part))
          (mkIdent left r0 rs) parts = mkIdent left r0' rs' ∧
        '\n' ∉ r0' ∧ ∀ x ∈ rs', '\n' ∉ x := by
    intro parts
    induction parts with
    | nil =>
      intro _ r0 rs h0 hs
      exact ⟨r0, rs, rfl, h0, hs⟩
    | cons p ps ih =>
      intro hmem r0 rs h0 hs
      have hp : '\n' ∉ p := hmem p (List.mem_cons_self p ps)
      have hps : ∀ x ∈ ps, '\n' ∉ x := fun x hx => hmem x (List.mem_cons_of_mem p hx)
      rw [List.foldl_cons]
      by_cases hempty : (mkIdent left r0 rs).isEmpty
      · have hstep : (if (mkIdent left r0 rs).isEmpty then p
            else mkIdent left r0 rs ++ '\n' :: (left ++ p)) = mkIdent left p [] := by
          rw [if_pos hempty]
          simp [mkIdent]
        rw [hstep]
        exact ih hps p [] hp (by simp)
      · have hstep : (if (mkIdent left r0 rs).isEmpty then p
            else mkIdent left r0 rs ++ '\n' :: (left ++ p)) = mkIdent left r0 (rs ++ [p]) := by
          rw [if_neg hempty]
          simp [mkIdent, List.append_assoc]
        rw [hstep]
        refine ih hps r0 (rs ++ [p]) h0 ?_
        intro x hx
        rcases List.mem_append.mp hx with hx | hx
        · exact hs x hx
        · rw [List.mem_singleton] at hx
          rw [hx]
          exact hp
  have h0 : identDocs doc left =
      List.foldl
        (fun res part => if res.isEmpty then part else res ++ '\n' :: (left ++ part))
        (mkIdent left [] []) ((pySplitlines doc).map pystrip) := by
    simp [identDocs, mkIdent]
  obtain ⟨r0', rs', heq, hn0, hns⟩ :=
    main ((pySplitlines doc).map pystrip) hparts [] [] (by simp) (by simp)
  exact ⟨r0', rs', h0.trans heq, hn0, hns⟩

/-- Line structure of the element splice, for any documentation text:
the produced text, split at newlines, is exactly the unchanged original
lines before the body's first line, the inserted triple-quoted block —
opened and closed at the body's column (prefix `left`), each continuation
line prefixed with `left` — then ALL original lines from the body's first
line on, then the final empty segment from the trailing newline. -/
theorem spliceElem_splitNl (dd : List Char) (fileLines : List (List Char))
    (nodeLine nodeCol : Nat)
    (hL1 : 1 ≤ nodeLine) (hL2 : nodeLine ≤ fileLines.length)
    (hC1 : 1 ≤ nodeCol)
    (hnl : ∀ l ∈ fileLines, '\n' ∉ l) :
    ∃ (r0 : List Char) (rs : List (List Char)),
      splitNl (spliceElem dd nodeLine nodeCol fileLines) =
        fileLines.take (nodeLine - 1) ++
          ((fileLines.getD (nodeLine - 1) []).take nodeCol ++ tq ++ r0) ::
            (List.map (fun x => (fileLines.getD (nodeLine - 1) []).take nodeCol ++ x) rs ++
              ((fileLines.getD (nodeLine - 1) []).take nodeCol ++ tq) ::
                (fileLines.drop (nodeLine - 1) ++ [[]])) := by
  obtain ⟨r0, rs, hid, hn0, hns⟩ := identDocs_shape dd
    ((fileLines.getD (nodeLine - 1) []).take ((nodeCol - 1) + 1))
  have hcoln : (nodeCol - 1) + 1 = nodeCol := by omega
  rw [hcoln] at hid
  have hlinelt : nodeLine - 1 < fileLines.length := by omega
  have hcur_mem : fileLines.getD (nodeLine - 1) [] ∈ fileLines := by
    rw [List.getD_eq_getElem fileLines [] hlinelt]
    exact List.getElem_mem hlinelt
  have hcurnl : '\n' ∉ fileLines.getD (nodeLine - 1) [] := hnl _ hcur_mem
  have hleftnl : '\n' ∉ (fileLines.getD (nodeLine - 1) []).take nodeCol :=
    fun hm => hcurnl (List.mem_of_mem_take hm)
  have htqleft : '\n' ∉ (fileLines.getD (nodeLine - 1) []).take nodeCol ++ tq := by
    intro hm
    rcases List.mem_append.mp hm with hm | hm
    · exact hleftnl hm
    · simp [tq] at hm
  have htake : ∀ l ∈ fileLines.take (nodeLine - 1), '\n' ∉ l :=
    fun l hl => hnl l (List.mem_of_mem_take hl)
  have hdrop : ∀ l ∈ fileLines.drop ((nodeLine - 1) + 1), '\n' ∉ l :=
    fun l hl => hnl l (List.mem_of_mem_drop hl)
  refine ⟨r0, rs, ?_⟩
  have hsplice : spliceElem dd nodeLine nodeCol fileLines =
      stringifyLines (fileLines.take (nodeLine - 1)) ++
        (((fileLines.getD (nodeLine - 1) []).take nodeCol ++ tq) ++ mkIdent
            ((fileLines.getD (nodeLine - 1) []).take nodeCol) r0 rs ++
          '\n' :: (((fileLines.getD (nodeLine - 1) []).take nodeCol ++ tq) ++
            '\n' :: (fileLines.getD (nodeLine - 1) [] ++
              '\n' :: stringifyLines (fileLines.drop ((nodeLine - 1) + 1))))) := by
    simp only [spliceElem, hid, hcoln]
    rw [List.take_append_drop (nodeCol - 1) (fileLines.getD (nodeLine - 1) [])]
    simp [List.append_assoc]
  have hfin : splitNl (stringifyLines (fileLines.drop ((nodeLine - 1) + 1))) =
      fileLines.drop ((nodeLine - 1) + 1) ++ [[]] := by
    have h := splitNl_stringify hdrop ([] : List Char)
    rw [List.append_nil] at h
    simpa using h
  rw [hsplice, splitNl_stringify htake,
    splitNl_mkIdent hleftnl rs hns _ r0 htqleft hn0,
    splitNl_append_nl htqleft, splitNl_append_nl hcurnl, hfin]
  have hdropline : fileLines.drop (nodeLine - 1) =
      fileLines.getD (nodeLine - 1) [] :: fileLines.drop ((nodeLine - 1) + 1) := by
    rw [List.drop_eq_getElem_cons hlinelt, List.getD_eq_getElem fileLines [] hlinelt]
  rw [hdropline]
  simp

/-- C3: a successful `_add_doc` splice on a (non-module) element — in
particular on the sole undocumented free function of a file — produces text
whose line decomposition is: the unchanged lines before the body's first
line, then a triple-quoted documentation block whose every line starts with
the body line's leading text up to the body's column (`left`, of width
exactly `node_col`; opening line `left ++ \"\"\" ++ …`, continuation lines
prefixed with `left`, closing line `left ++ \"\"\"`), then every original
line from the body's first line on, unchanged and in order; consequently
every line of the original file is still present, in its original relative
order (the original line list is a sublist of the new one). -/
theorem c3_splice_preserves_lines (doc : List Char) (fileLines : List (List Char))
    (fileContent : List Char) (nodeLine nodeCol : Nat) (d nc : List Char)
    (hL1 : 1 ≤ nodeLine) (hL2 : nodeLine ≤ fileLines.length)
    (hC1 : 1 ≤ nodeCol) (hC2 : nodeCol ≤ (fileLines.getD (nodeLine - 1) []).length)
    (hnl : ∀ l ∈ fileLines, '\n' ∉ l)
    (hok : addDoc doc (.element nodeLine nodeCol) fileLines fileContent = .ok (d, nc)) :
    (∃ (r0 : List Char) (rs : List (List Char)),
      splitNl nc =
        fileLines.take (nodeLine - 1) ++
          ((fileLines.getD (nodeLine - 1) []).take nodeCol ++ tq ++ r0) ::
            (List.map (fun x => (fileLines.getD (nodeLine - 1) []).take nodeCol ++ x) rs ++
              ((fileLines.getD (nodeLine - 1) []).take nodeCol ++ tq) ::
                (fileLines.drop (nodeLine - 1) ++ [[]]))) ∧
    fileLines.Sublist (splitNl nc) ∧
    ((fileLines.getD (nodeLine - 1) []).take nodeCol).length = nodeCol := by
  have hnc : nc = spliceElem d nodeLine nodeCol fileLines := by
    rcases hb : extract_md_blocks doc with _ | ⟨b, _ | ⟨b2, rest⟩⟩
    · simp only [addDoc, hb, splice, Except.ok.injEq, Prod.mk.injEq] at hok
      obtain ⟨hd, h2⟩ := hok
      subst hd
      exact h2.symm
    · simp only [addDoc, hb, splice, Except.ok.injEq, Prod.mk.injEq] at hok
      obtain ⟨hd, h2⟩ := hok
      subst hd
      exact h2.symm
    · simp only [addDoc, hb] at hok
      exact absurd hok (by simp)
  obtain ⟨r0, rs, hsplit⟩ :=
    spliceElem_splitNl d fileLines nodeLine nodeCol hL1 hL2 hC1 hnl
  rw [← hnc] at hsplit
  have hlen : ((fileLines.getD (nodeLine - 1) []).take nodeCol).length = nodeCol := by
    rw [List.length_take]
    omega
  refine ⟨⟨r0, rs, hsplit⟩, ?_, hlen⟩
  rw [hsplit]
  have hfl : fileLines =
      fileLines.take (nodeLine - 1) ++ fileLines.drop (nodeLine - 1) :=
    (List.take_append_drop (nodeLine - 1) fileLines).symm
  nth_rewrite 1 [hfl]
  refine List.Sublist.append_left ?_ _
  refine List.Sublist.trans ?_ (List.sublist_cons_self _ _)
  refine List.Sublist.trans ?_ (List.sublist_append_right _ _)
  refine List.Sublist.trans ?_ (List.sublist_cons_self _ _)
  exact List.sublist_append_left _ _

/-- Witness for C3: the two-line file `def f():` / `    return 1` (its sole
top-level declaration an undocumented free function whose body starts at
line 2, column 4), spliced with the raw documentation text `Adds one.`. -/
theorem c3_splice_preserves_lines_witness :
    (∃ (r0 : List Char) (rs : List (List Char)),
      splitNl (spliceElem "Adds one.".toList 2 4
          ["def f():".toList, "    return 1".toList]) =
        (["def f():".toList, "    return 1".toList] : List (List Char)).take 1 ++
          (((["def f():".toList, "    return 1".toList] : List (List Char)).getD 1 []).take 4
              ++ tq ++ r0) ::
            (List.map (fun x =>
                ((["def f():".toList, "    return 1".toList] : List (List Char)).getD 1
                  []).take 4 ++ x) rs ++
              (((["def f():".toList, "    return 1".toList] : List (List Char)).getD 1
                  []).take 4 ++ tq) ::
                ((["def f():".toList, "    return 1".toList] : List (List Char)).drop 1
                  ++ [[]]))) ∧
    List.Sublist ["def f():".toList, "    return 1".toList]
      (splitNl (spliceElem "Adds one.".toList 2 4
        ["def f():".toList, "    return 1".toList])) ∧
    (((["def f():".toList, "    return 1".toList] : List (List Char)).getD 1 []).take
        4).length = 4 :=
  c3_splice_preserves_lines "Adds one.".toList
    ["def f():".toList, "    return 1".toList] [] 2 4 "Adds one.".toList
    (spliceElem "Adds one.".toList 2 4 ["def f():".toList, "    return 1".toList])
    (by decide) (by decide) (by decide) (by decide) (by decide) (by rfl)

/-! ## Syntax-tree harvester and element model (src/prout.py)

`MyNodeVisitor` walks a parsed module and builds the element tree:
`visit_Module` creates the root `ModuleContainer` (name `"module"`);
`visit_ClassDef` creates a `ClassElem` and ALWAYS appends it to the current
container's `children`; `visit_FunctionDef` / `visit_AsyncFunctionDef`
(identical bodies) create a `FunctionElem` and — when the current container
is a `ClassElem` — store it in the `constructor` slot if it is named
`__init__`, else append it to BOTH `functions` and `children`; in any other
container they append to `children` only.  Each visited definition becomes
the current container for its own body.

The abstract syntax is modelled by `PyStmt` (declarations and an opaque
`other` statement); `ast.get_docstring` results are carried as the
`docstring` fields.  The element tree is `Elem` with the constructor slot,
the `functions` list and the `children` list of the source classes. -/

/-- A Python statement, as far as the harvester observes it. -/
inductive PyStmt where
  | funcDef (isAsync : Bool) (name : String) (docstring : Option String)
      (body : List PyStmt) : PyStmt
  | classDef (name : String) (docstring : Option String) (body : List PyStmt) : PyStmt
  | other : PyStmt

/-- The three element classes of the model. -/
inductive EKind where
  | mod : EKind
  | cls : EKind
  | fn : EKind
deriving DecidableEq

/-- An element-model node: kind, `name`, `doc`, `constructor` slot (classes
only), `functions` list (classes only) and `children` list. -/
inductive Elem where
  | mk (kind : EKind) (name : String) (doc : Option String) (ctor : Option Elem)
      (functions : List Elem) (children : List Elem) : Elem

def Elem.kind : Elem → EKind
  | .mk k _ _ _ _ _ => k

def Elem.name : Elem → String
  | .mk _ n _ _ _ _ => n

def Elem.doc : Elem → Option String
  | .mk _ _ d _ _ _ => d

def Elem.ctor : Elem → Option Elem
  | .mk _ _ _ c _ _ => c

def Elem.functions : Elem → List Elem
  | .mk _ _ _ _ f _ => f

def Elem.children : Elem → List Elem
  | .mk _ _ _ _ _ ch => ch

/-- The visitor's walk over a statement list.  The accumulator carries the
current container's `(constructor, functions, children)` state;  `inClass`
says whether the current container is a `ClassElem`. -/
def visitStmtsAux : Bool → (Option Elem × List Elem × List Elem) → List PyStmt →
    Option Elem × List Elem × List Elem
  | _, acc, [] => acc
  | inClass, (ct, fns, ch), (.funcDef _ name dstr body) :: rest =>
    let sub := visitStmtsAux false (none, [], []) body
    let fct := Elem.mk .fn name dstr none [] sub.2.2
    if inClass ∧ name = "__init__" then
      visitStmtsAux inClass (some fct, fns, ch) rest
    else if inClass then
      visitStmtsAux inClass (ct, fns ++ [fct], ch ++ [fct]) rest
    else
      visitStmtsAux inClass (ct, fns, ch ++ [fct]) rest
  | inClass, (ct, fns, ch), (.classDef name dstr body) :: rest =>
    let sub := visitStmtsAux true (none, [], []) body
    visitStmtsAux inClass
      (ct, fns, ch ++ [Elem.mk .cls name dstr sub.1 sub.2.1 sub.2.2]) rest
  | inClass, acc, .other :: rest => visitStmtsAux inClass acc rest

/-- The harvested tree of one file: the `ModuleContainer` root (named
`module`) over the visitor's walk of the top-level statements. -/
def harvest (moduleDoc : Option String) (stmts : List PyStmt) : Elem :=
  let r := visitStmtsAux false (none, [], []) stmts
  Elem.mk .mod "module" moduleDoc none [] r.2.2

/-- All nodes of an element tree: the node itself, the constructor subtree,
and every child's subtree (the `functions` list aliases `children` entries
and contributes no separate nodes). -/
def allElems : Elem → List Elem
  | .mk k n d ct fns ch =>
    .mk k n d ct fns ch ::
      ((match ct with
        | some c => allElems c
        | none => []) ++
        (ch.attach.map (fun x => allElems x.1)).flatten)
decreasing_by
  · simp
    omega
  · have := List.sizeOf_lt_of_mem x.2
    simp
    omega

theorem mem_allElems_mk {x : Elem} {k : EKind} {n : String} {d : Option String}
    {ct : Option Elem} {fns ch : List Elem} :
    x ∈ allElems (Elem.mk k n d ct fns ch) ↔
      x = Elem.mk k n d ct fns ch ∨
      (∃ c, ct = some c ∧ x ∈ allElems c) ∨
      (∃ c ∈ ch, x ∈ allElems c) := by
  cases ct with
  | none =>
    simp [allElems, List.mem_flatten, List.mem_map, Subtype.exists]
  | some c =>
    simp [allElems, List.mem_flatten, List.mem_map, Subtype.exists]

theorem self_mem_allElems (e : Elem) : e ∈ allElems e := by
  cases e with
  | mk k n d ct fns ch => exact mem_allElems_mk.mpr (Or.inl rfl)

/-- The well-formedness of a class node's lists, as the amended claim C7
states it: the `functions` list holds only non-initializer functions, no
FUNCTION named `__init__` sits in `children`, and the `constructor` slot
holds (if anything) a function named `__init__`. -/
def goodClassLists (e : Elem) : Prop :=
  e.kind = .cls →
    (∀ f ∈ e.functions, f.kind = .fn ∧ f.name ≠ "__init__") ∧
    (∀ c ∈ e.children, c.kind = .fn → c.name ≠ "__init__") ∧
    (∀ c, e.ctor = some c → c.kind = .fn ∧ c.name = "__init__")

/-- Invariant of the visitor's accumulator while walking a body with
`inClass` saying whether the container is a class. -/
def accGood (inClass : Bool) (acc : Option Elem × List Elem × List Elem) : Prop :=
  (∀ c, acc.1 = some c →
      c.kind = .fn ∧ c.name = "__init__" ∧ ∀ x ∈ allElems c, goodClassLists x) ∧
  (∀ f ∈ acc.2.1, f.kind = .fn ∧ f.name ≠ "__init__") ∧
  (∀ c ∈ acc.2.2,
      (inClass = true → c.kind = .fn → c.name ≠ "__init__") ∧
      ∀ x ∈ allElems c, goodClassLists x)

theorem visit_good : ∀ (nb : Nat) (stmts : List PyStmt), sizeOf stmts ≤ nb →
    ∀ (inClass : Bool) (acc : Option Elem × List Elem × List Elem),
      accGood inClass acc → accGood inClass (visitStmtsAux inClass acc stmts) := by
  intro nb
  induction nb with
  | zero =>
    intro stmts hs
    exfalso
    cases stmts <;> simp at hs
  | succ nb ih =>
    intro stmts hs inClass acc hacc
    match stmts, acc with
    | [], acc =>
      simp only [visitStmtsAux]
      exact hacc
    | .other :: rest, acc =>
      simp only [visitStmtsAux]
      refine ih rest ?_ inClass acc hacc
      simp at hs
      omega
    | .funcDef b name dstr body :: rest, (ct, fns, ch) =>
      have hsub : accGood false (visitStmtsAux false (none, [], []) body) := by
        refine ih body ?_ false (none, [], []) ?_
        · simp at hs
          omega
        · refine ⟨?_, ?_, ?_⟩ <;> simp [accGood]
      have hsubch : ∀ c ∈ (visitStmtsAux false (none, [], []) body).2.2,
          ∀ x ∈ allElems c, goodClassLists x := fun c hc => (hsub.2.2 c hc).2
      have hfct : ∀ x ∈ allElems (Elem.mk .fn name dstr none []
          (visitStmtsAux false (none, [], []) body).2.2), goodClassLists x := by
        intro x hx
        rcases mem_allElems_mk.mp hx with hx | ⟨c, hc, _⟩ | ⟨c, hc, hxc⟩
        · subst hx
          intro hk
          simp [Elem.kind] at hk
        · exact absurd hc (by simp)
        · exact hsubch c hc x hxc
      have hrest : sizeOf rest ≤ nb := by
        simp at hs
        omega
      simp only [visitStmtsAux]
      by_cases hbr : inClass = true ∧ name = "__init__"
      · rw [if_pos hbr]
        refine ih rest hrest inClass _ ⟨?_, hacc.2.1, hacc.2.2⟩
        intro c hc
        rw [Option.some.injEq] at hc
        subst hc
        exact ⟨rfl, hbr.2, hfct⟩
      · rw [if_neg hbr]
        by_cases hic : inClass = true
        · rw [if_pos hic]
          have hnm : name ≠ "__init__" := fun hn => hbr ⟨hic, hn⟩
          refine ih rest hrest inClass _ ⟨hacc.1, ?_, ?_⟩
          · intro f hf
            rcases List.mem_append.mp hf with hf | hf
            · exact hacc.2.1 f hf
            · rw [List.mem_singleton] at hf
              subst hf
              exact ⟨rfl, hnm⟩
          · intro c hc
            rcases List.mem_append.mp hc with hc | hc
            · exact hacc.2.2 c hc
            · rw [List.mem_singleton] at hc
              subst hc
              exact ⟨fun _ _ => hnm, hfct⟩
        · rw [if_neg hic]
          refine ih rest hrest inClass _ ⟨hacc.1, hacc.2.1, ?_⟩
          intro c hc
          rcases List.mem_append.mp hc with hc | hc
          · exact hacc.2.2 c hc
          · rw [List.mem_singleton] at hc
            subst hc
            exact ⟨fun h => absurd h hic, hfct⟩
    | .classDef name dstr body :: rest, (ct, fns, ch) =>
      have hsub : accGood true (visitStmtsAux true (none, [], []) body) := by
        refine ih body ?_ true (none, [], []) ?_
        · simp at hs
          omega
        · refine ⟨?_, ?_, ?_⟩ <;> simp [accGood]
      have hrest : sizeOf rest ≤ nb := by
        simp at hs
        omega
      have hclsgood : goodClassLists (Elem.mk .cls name dstr
          (visitStmtsAux true (none, [], []) body).1
          (visitStmtsAux true (none, [], []) body).2.1
          (visitStmtsAux true (none, [], []) body).2.2) := by
        intro _
        refine ⟨?_, ?_, ?_⟩
        · intro f hf
          exact hsub.2.1 f hf
        · intro c hc hk
          exact (hsub.2.2 c hc).1 rfl hk
        · intro c hc
          exact ⟨(hsub.1 c hc).1, (hsub.1 c hc).2.1⟩
      have hcls : ∀ x ∈ allElems (Elem.mk .cls name dstr
          (visitStmtsAux true (none, [], []) body).1
          (visitStmtsAux true (none, [], []) body).2.1
          (visitStmtsAux true (none, [], []) body).2.2), goodClassLists x := by
        intro x hx
        rcases mem_allElems_mk.mp hx with hx | ⟨c, hc, hxc⟩ | ⟨c, hc, hxc⟩
        · subst hx
          exact hclsgood
        · exact (hsub.1 c hc).2.2 x hxc
        · exact (hsub.2.2 c hc).2 x hxc
      simp only [visitStmtsAux]
      refine ih rest hrest inClass _ ⟨hacc.1, hacc.2.1, ?_⟩
      intro c hc
      rcases List.mem_append.mp hc with hc | hc
      · exact hacc.2.2 c hc
      · rw [List.mem_singleton] at hc
        subst hc
        exact ⟨fun _ hk => by simp [Elem.kind] at hk, hcls⟩

/-- C7 amended: in every harvested element model, no class stores a FUNCTION
named `__init__` in its `functions` or `children` lists — an initializer
function of a class is kept only in the `constructor` slot, which in turn
only ever holds a function named `__init__`. -/
theorem c7_no_init_function_in_lists (moduleDoc : Option String) (stmts : List PyStmt) :
    ∀ e ∈ allElems (harvest moduleDoc stmts), goodClassLists e := by
  intro e he
  have hacc : accGood false (visitStmtsAux false (none, [], []) stmts) :=
    visit_good (sizeOf stmts) stmts (Nat.le_refl _) false (none, [], [])
      (by refine ⟨?_, ?_, ?_⟩ <;> simp [accGood])
  rcases mem_allElems_mk.mp he with he | ⟨c, hc, _⟩ | ⟨c, hc, hxc⟩
  · subst he
    intro hk
    simp [Elem.kind] at hk
  · exact absurd hc (by simp)
  · exact (hacc.2.2 c hc).2 e hxc

/-- A module whose sole statement is `class C:` containing a nested
`class __init__:` — legal Python, and `visit_ClassDef` appends the nested
class to the OUTER class's `children` unconditionally. -/
def c7Stmts : List PyStmt := [.classDef "C" none [.classDef "__init__" none []]]

/-- Claim C7 as stated: no element NAMED `__init__` (of any kind) appears in
any class's `children` or `functions` list of a harvested model. -/
def noInitNamedInLists (root : Elem) : Prop :=
  ∀ e ∈ allElems root, e.kind = .cls →
    (∀ c ∈ e.children, c.name ≠ "__init__") ∧
    (∀ f ∈ e.functions, f.name ≠ "__init__")

/-- C7 counterexample: harvesting `class C:` / `    class __init__: …` puts
a CLASS named `__init__` into `C`'s `children` list (only function
definitions named `__init__` are diverted to the constructor slot), so the
claim as stated is false. -/
theorem c7_counterexample : ¬ noInitNamedInLists (harvest none c7Stmts) := by
  intro h
  have hh : harvest none c7Stmts =
      Elem.mk .mod "module" none none []
        [Elem.mk .cls "C" none none [] [Elem.mk .cls "__init__" none none [] []]] := by
    simp [harvest, c7Stmts, visitStmtsAux]
  rw [hh] at h
  have hC : (Elem.mk .cls "C" none none []
        [Elem.mk .cls "__init__" none none [] []]) ∈
      allElems (Elem.mk .mod "module" none none []
        [Elem.mk .cls "C" none none [] [Elem.mk .cls "__init__" none none [] []]]) :=
    mem_allElems_mk.mpr
      (Or.inr (Or.inr ⟨_, List.mem_singleton.mpr rfl, self_mem_allElems _⟩))
  have h2 := (h _ hC rfl).1 (Elem.mk .cls "__init__" none none [] [])
    (by simp [Elem.children])
  exact h2 rfl

/-- Witness for the amended C7 at the concrete module `c7Stmts`. -/
theorem c7_no_init_function_in_lists_witness :
    goodClassLists (harvest none c7Stmts) :=
  c7_no_init_function_in_lists none c7Stmts (harvest none c7Stmts)
    (self_mem_allElems _)

/-! ## The per-file documentation loop (src/prout.py, `document_files`)

Each iteration of the `while True:` loop re-reads the file, re-parses it and
rebuilds the element model, then `_pick`s the next element: `_pick(elem)`
returns nothing when `elem.get_id()` is already visited; otherwise it
recurses through `reversed(elem.children)`, then (for a class) the
constructor, and finally returns `elem` itself.  A pick of nothing ends the
loop.  The picked element's id is marked visited FIRST; if its `doc` is
truthy (a non-empty string) the iteration does nothing else — no prompt
invocation, no write (`continue`); only an untruthy `doc` invokes a prompt
and rewrites the file through `_add_doc`.

`get_id` is the dot-joined path of names from the root.  The loop is
modelled with explicit fuel (the real loop terminates because every
iteration marks a fresh id visited); the LLM, the splice and the parser are
abstract parameters, which only strengthens the no-op theorem. -/

/-- `get_id`: the dot-joined path; the root (no parent) is its bare name. -/
def mkId (pfx : String) (name : String) : String :=
  if pfx = "" then name else pfx ++ "." ++ name

mutual
/-- Embedding of `_pick` (the visited check, then the reversed-children
descent, then the class constructor, then the element itself). -/
def pick (visited : List String) (pfx : String) : Elem → Option (String × Elem)
  | .mk k n d ct fns ch =>
    if mkId pfx n ∈ visited then none
    else
      match pickRev visited (mkId pfx n) ch with
      | some r => some r
      | none =>
        match k, ct with
        | .cls, some c =>
          match pick visited (mkId pfx n) c with
          | some r => some r
          | none => some (mkId pfx n, .mk k n d ct fns ch)
        | _, _ => some (mkId pfx n, .mk k n d ct fns ch)

/-- `for subelem in reversed(elem.children): …` — try later children first. -/
def pickRev (visited : List String) (pfx : String) : List Elem → Option (String × Elem)
  | [] => none
  | x :: xs =>
    match pickRev visited pfx xs with
    | some r => some r
    | none => pick visited pfx x
end

/-- A pick returns a node of the tree it searched. -/
theorem pick_mem_aux (nb : Nat) :
    (∀ e : Elem, sizeOf e ≤ nb → ∀ v p id x, pick v p e = some (id, x) →
      x ∈ allElems e) ∧
    (∀ l : List Elem, sizeOf l ≤ nb → ∀ v p id x, pickRev v p l = some (id, x) →
      ∃ e ∈ l, x ∈ allElems e) := by
  induction nb with
  | zero =>
    constructor
    · intro e he
      exfalso
      cases e
      simp at he
    · intro l hl
      exfalso
      cases l <;> simp at hl
  | succ nb ih =>
    constructor
    · intro e he v p id x hp
      rcases e with ⟨k, n, d, ct, fns, ch⟩
      have hch : sizeOf ch ≤ nb := by
        simp at he
        omega
      have hsimple : ∀ (hp : (if mkId p n ∈ v then none
          else
            match pickRev v (mkId p n) ch with
            | some r => some r
            | none => some (mkId p n, Elem.mk k n d ct fns ch)) = some (id, x)),
          x ∈ allElems (Elem.mk k n d ct fns ch) := by
        intro hp
        by_cases hv : mkId p n ∈ v
        · rw [if_pos hv] at hp
          exact absurd hp (by simp)
        · rw [if_neg hv] at hp
          cases hrev : pickRev v (mkId p n) ch with
          | some r =>
            rw [hrev] at hp
            dsimp only at hp
            simp only [Option.some.injEq] at hp
            subst hp
            obtain ⟨c, hc, hxc⟩ := ih.2 ch hch v (mkId p n) id x hrev
            exact mem_allElems_mk.mpr (Or.inr (Or.inr ⟨c, hc, hxc⟩))
          | none =>
            rw [hrev] at hp
            dsimp only at hp
            simp only [Option.some.injEq, Prod.mk.injEq] at hp
            rw [← hp.2]
            exact self_mem_allElems _
      cases k with
      | mod =>
        rw [pick.eq_2] at hp
        · exact hsimple hp
        · intro c hk _
          exact EKind.noConfusion hk
      | fn =>
        rw [pick.eq_2] at hp
        · exact hsimple hp
        · intro c hk _
          exact EKind.noConfusion hk
      | cls =>
        cases ct with
        | none =>
          rw [pick.eq_2] at hp
          · exact hsimple hp
          · intro c _ hc
            exact Option.noConfusion hc
        | some c =>
          have hc : sizeOf c ≤ nb := by
            simp at he
            omega
          rw [pick.eq_1] at hp
          by_cases hv : mkId p n ∈ v
          · rw [if_pos hv] at hp
            exact absurd hp (by simp)
          · rw [if_neg hv] at hp
            cases hrev : pickRev v (mkId p n) ch with
            | some r =>
              rw [hrev] at hp
              dsimp only at hp
              simp only [Option.some.injEq] at hp
              subst hp
              obtain ⟨c2, hc2, hxc⟩ := ih.2 ch hch v (mkId p n) id x hrev
              exact mem_allElems_mk.mpr (Or.inr (Or.inr ⟨c2, hc2, hxc⟩))
            | none =>
              rw [hrev] at hp
              dsimp only at hp
              cases hpc : pick v (mkId p n) c with
              | some r =>
                rw [hpc] at hp
                dsimp only at hp
                simp only [Option.some.injEq] at hp
                subst hp
                exact mem_allElems_mk.mpr
                  (Or.inr (Or.inl ⟨c, rfl, ih.1 c hc v (mkId p n) id x hpc⟩))
              | none =>
                rw [hpc] at hp
                dsimp only at hp
                simp only [Option.some.injEq, Prod.mk.injEq] at hp
                rw [← hp.2]
                exact self_mem_allElems _
    · intro l hl v p id x hp
      match l with
      | [] =>
        rw [pickRev] at hp
        exact absurd hp (by simp)
      | y :: ys =>
        rw [pickRev] at hp
        have hys : sizeOf ys ≤ nb := by
          simp at hl
          omega
        have hy : sizeOf y ≤ nb := by
          simp at hl
          omega
        cases hrev : pickRev v p ys with
        | some r =>
          rw [hrev] at hp
          dsimp only at hp
          simp only [Option.some.injEq] at hp
          subst hp
          obtain ⟨e, hes, hx⟩ := ih.2 ys hys v p id x hrev
          exact ⟨e, List.mem_cons_of_mem y hes, hx⟩
        | none =>
          rw [hrev] at hp
          dsimp only at hp
          exact ⟨y, List.mem_cons_self y ys, ih.1 y hy v p id x hp⟩

theorem pick_mem {visited : List String} {pfx : String} {e : Elem}
    {id : String} {x : Elem} (h : pick visited pfx e = some (id, x)) :
    x ∈ allElems e :=
  (pick_mem_aux (sizeOf e)).1 e (Nat.le_refl _) visited pfx id x h

/-- Python truthiness of the `doc` field (`if to_document.doc:`): present
and non-empty. -/
def docTruthy : Option String → Bool
  | none => false
  | some s => !(s == "")

/-- The per-file `while True:` loop, with the parser, prompt oracle and
splice-and-write step as abstract parameters.  State: the visited-id set,
the file content, and the list of ids for which a prompt was invoked (and
the file rewritten).  Fuel stands in for the loop's termination. -/
def runLoop (parse : List Char → Elem) (oracle : String → Elem → List Char)
    (applyDoc : List Char → Elem → List Char → List Char) :
    Nat → List String → List Char → List String → List Char × List String
  | 0, _, file, calls => (file, calls)
  | fuel + 1, visited, file, calls =>
    match pick visited "" (parse file) with
    | none => (file, calls)
    | some (id, e) =>
      if docTruthy e.doc then
        runLoop parse oracle applyDoc fuel (id :: visited) file calls
      else
        runLoop parse oracle applyDoc fuel (id :: visited)
          (applyDoc (oracle id e) e file) (calls ++ [id])

/-- C5: if every element of the harvested model of the file (module root,
classes, functions, constructors alike) carries truthy (non-empty)
documentation, the per-file loop — for every fuel, every starting visited
set and every call log — leaves the file exactly as it was and invokes no
prompt: the final state is `(file, calls)` unchanged, and since `_add_doc`
never runs, no element's pre-existing doc is reassigned. -/
theorem c5_no_op_on_documented (parse : List Char → Elem)
    (oracle : String → Elem → List Char)
    (applyDoc : List Char → Elem → List Char → List Char)
    (fuel : Nat) (visited : List String) (file : List Char) (calls : List String)
    (h : ∀ e ∈ allElems (parse file), docTruthy e.doc = true) :
    runLoop parse oracle applyDoc fuel visited file calls = (file, calls) := by
  induction fuel generalizing visited with
  | zero => rfl
  | succ fuel ih =>
    rw [runLoop]
    cases hp : pick visited "" (parse file) with
    | none => rfl
    | some r =>
      obtain ⟨id, e⟩ := r
      have hd := h e (pick_mem hp)
      simp only [hd, if_true]
      exact ih (id :: visited)

/-- A concrete fully documented element model: a module carrying a doc, with
a class (doc, constructor with doc, one method with doc) and a free
function with doc. -/
def c5Tree : Elem :=
  Elem.mk .mod "module" (some "Module doc.") none []
    [Elem.mk .cls "C" (some "Class doc.")
        (some (Elem.mk .fn "__init__" (some "Ctor doc.") none [] []))
        [Elem.mk .fn "m" (some "Method doc.") none [] []]
        [Elem.mk .fn "m" (some "Method doc.") none [] []],
      Elem.mk .fn "f" (some "Fn doc.") none [] []]

/-- Witness for C5: on a file parsing to the fully documented `c5Tree`, the
loop returns the file and the call log unchanged. -/
theorem c5_no_op_on_documented_witness :
    runLoop (fun _ => c5Tree) (fun _ _ => []) (fun _ _ f => f) 7 [] "x".toList [] =
      ("x".toList, []) := by
  refine c5_no_op_on_documented (fun _ => c5Tree) (fun _ _ => [])
    (fun _ _ f => f) 7 [] "x".toList [] ?_
  intro e he
  simp [c5Tree, allElems] at he
  rcases he with rfl | rfl | rfl | rfl | rfl <;> rfl
